import Mathlib

/-!
Package urlshort: redirect-or-fallback dispatch.

A shallow embedding of `handler.go` (package `urlshort`): the redirection
table and its reduction to a map, the dispatching handler built by
`MapHandler`, and the two decoders `YAMLHandler` and `JSONHandler`.

Go `string` is embedded as `String`, `map[string]string` as a finite map with
unique keys, a slice as a list.  Packages the source imports (`net/http`,
`encoding/json`, `gopkg.in/yaml.v2`) are not part of the repository: the
dispatcher and the decoders take what they call from them as arguments.
-/

namespace urlshort

/-! ## Data model -/

/-- Redirection represents a path redirection /foo to a defined URL. -/
structure Redirection where
  Path : String
  URL : String
  deriving DecidableEq, Repr

/-- The Go type `Redirections`, a slice of `Redirection`. -/
abbrev Redirections := List Redirection

/-- The Go type `map[string]string`. -/
abbrev PathMap := Finmap (fun _ : String => String)

/-- Map converts a redirection slice into a MapHandler parameters:
start from the empty map and assign `result[r.Path] = r.URL` for each
element in slice order. -/
def Redirections.Map (rs : Redirections) : PathMap :=
  rs.foldl (fun result r => result.insert r.Path r.URL) ∅

/-- Number of keys of a map, Go's `len(m)`. -/
def PathMap.len (m : PathMap) : Nat := m.keys.card

/-- The last entry of a table that has the given path, if any. -/
def lastWithPath (p : String) (rs : Redirections) : Option Redirection :=
  rs.reverse.find? (fun r => decide (r.Path = p))

/-! ## Requests and handlers -/

namespace url

/-- The fields of Go's `url.URL` read by the dispatcher and by
`http.Redirect`. -/
structure URL where
  Scheme : String := ""
  Host : String := ""
  Path : String := ""
  RawQuery : String := ""
  deriving DecidableEq, Repr

end url

namespace http

/-- The fields of Go's `http.Request` read by the dispatcher and by
`http.Redirect`; `URL.Path` is the path as the transport presents it. -/
structure Request where
  Method : String := "GET"
  URL : url.URL := {}
  Host : String := ""
  deriving DecidableEq, Repr

/-- The constant `http.StatusPermanentRedirect`. -/
def StatusPermanentRedirect : Nat := 308

/-- A value implementing `http.Handler`: `ServeHTTP(w, r)` acts on the
response writer, so it is a transformer of the writer state `W`. -/
abbrev Handler (W : Type) := W → Request → W

/-- The Go type `http.HandlerFunc`; it implements `http.Handler`. -/
abbrev HandlerFunc (W : Type) := W → Request → W

end http

/-- The body of the closure returned by `MapHandler`, as a transformer of
the pair (captured map, response writer): look the raw request path up; on a
hit call `http.Redirect(w, r, url, http.StatusPermanentRedirect)` and return;
otherwise call `fallback.ServeHTTP(w, r)`.  `httpRedirect` is `http.Redirect`. -/
def MapHandler.serve {W : Type} (httpRedirect : W → http.Request → String → Nat → W)
    (pathsToUrls : PathMap) (fallback : http.Handler W) (w : W) (r : http.Request) :
    PathMap × W :=
  match pathsToUrls.lookup r.URL.Path with
  | some url => (pathsToUrls, httpRedirect w r url http.StatusPermanentRedirect)
  | none => (pathsToUrls, fallback w r)

/-- MapHandler returns an `http.HandlerFunc` that maps paths (keys of the
map) to their URL, and calls the fallback when the path is not in the map. -/
def MapHandler {W : Type} (httpRedirect : W → http.Request → String → Nat → W)
    (pathsToUrls : PathMap) (fallback : http.Handler W) : http.HandlerFunc W :=
  fun w r => (MapHandler.serve httpRedirect pathsToUrls fallback w r).2

/-! ## Decoders -/

/-- The Go type `[]byte`. -/
abbrev Bytes := List UInt8

/-- The bytes of a string (`[]byte(s)`). -/
def bytesOf (s : String) : Bytes := s.toUTF8.data.toList

/-- YAMLHandler parses the YAML and returns the handler for the decoded
table.  `yamlUnmarshal yml` is the outcome of
`yaml.Unmarshal(yml, &redirections)` on a nil `redirections`: the value left
in `redirections` and the returned error (`none` is Go's `nil`). -/
def YAMLHandler {W ε : Type} (httpRedirect : W → http.Request → String → Nat → W)
    (yamlUnmarshal : Bytes → Redirections × Option ε)
    (yml : Bytes) (fallback : http.Handler W) : Option (http.HandlerFunc W) × Option ε :=
  match yamlUnmarshal yml with
  | (_, some err) => (none, some err)
  | (redirections, none) =>
    (some (MapHandler httpRedirect (Redirections.Map redirections) fallback), none)

/-- JSONHandler parses the JSON and returns the handler for the decoded
table.  `jsonUnmarshal raw` is the outcome of
`json.Unmarshal(raw, &redirections)` on a nil `redirections`. -/
def JSONHandler {W ε : Type} (httpRedirect : W → http.Request → String → Nat → W)
    (jsonUnmarshal : Bytes → Redirections × Option ε)
    (raw : Bytes) (fallback : http.Handler W) : Option (http.HandlerFunc W) × Option ε :=
  match jsonUnmarshal raw with
  | (_, some err) => (none, some err)
  | (redirections, none) =>
    (some (MapHandler httpRedirect (Redirections.Map redirections) fallback), none)

/-! ## Call log

To speak about which calls a handler makes, the writer state is paired with
a log and every callee appends its own invocation to it. -/

/-- One call made by the dispatcher. -/
inductive Call where
  | Redirect (r : http.Request) (url : String) (code : Nat)
  | ServeHTTP (r : http.Request)
  deriving DecidableEq, Repr

/-- The redirect function, logging each invocation with its arguments. -/
def logRedirect {W : Type} (httpRedirect : W → http.Request → String → Nat → W) :
    W × List Call → http.Request → String → Nat → W × List Call :=
  fun s r url code => (httpRedirect s.1 r url code, s.2 ++ [Call.Redirect r url code])

/-- The fallback, logging each invocation with the request it receives. -/
def logFallback {W : Type} (fallback : http.Handler W) : http.Handler (W × List Call) :=
  fun s r => (fallback s.1 r, s.2 ++ [Call.ServeHTTP r])

/-- A redirect function on a writer that is nothing but the log of the calls
made on it; used for concrete instances. -/
def recordRedirect : List Call → http.Request → String → Nat → List Call :=
  fun w r url code => w ++ [Call.Redirect r url code]

/-- A fallback on the same writer, recording that it was called. -/
def recordFallback : http.Handler (List Call) :=
  fun w r => w ++ [Call.ServeHTTP r]

/-! ## The redirect of `net/http`

`http.Redirect` belongs to Go's standard library, not to the repository.  What
it writes decides the `Location` header of a redirect, so its header and
status effects are transcribed here from `net/http` (`server.go`) and `path`
(`path.go`); the HTML note it adds as a body for GET requests is left out.
`url.Parse` and the method `EscapedPath` of `url.URL` are taken as arguments
(`urlParse`, `escapedPath`).  Strings are handled as lists of
characters; every byte the library inspects (`/`, `?`, `.`) is ASCII, so this
agrees with Go's byte indexing on UTF-8 text. -/

namespace path

/-- Split splits path immediately following the final slash, separating it
into a directory and file name component. -/
def Split (p : List Char) : List Char × List Char :=
  ((p.reverse.dropWhile (fun c => c != '/')).reverse,
   (p.reverse.takeWhile (fun c => c != '/')).reverse)

/-- The inner loop of the `..` case of `Clean`, after the first `out.w--`:
while `out.w > dotdot && out.index(out.w) != '/'` decrement `out.w`. -/
def Clean.backtrack (buf : List Char) (dotdot : Nat) : Nat → Nat
  | 0 => 0
  | w + 1 =>
    if dotdot < w + 1 ∧ buf.getD (w + 1) '/' ≠ '/' then Clean.backtrack buf dotdot w
    else w + 1

/-- The main loop of `Clean`: `rest` is `path[r:]`, `out` the bytes written so
far (`out.w` is its length); each round consumes at least one byte, so a
budget of `len(path)` rounds is never exhausted. -/
def Clean.loop (rooted : Bool) : Nat → List Char → List Char → Nat → List Char
  | 0, _, out, _ => out
  | _ + 1, [], out, _ => out
  | n + 1, c :: rest, out, dotdot =>
    if c = '/' then
      -- empty path element
      Clean.loop rooted n rest out dotdot
    else if c = '.' ∧ (rest = [] ∨ rest.head? = some '/') then
      -- . element
      Clean.loop rooted n rest out dotdot
    else if c = '.' ∧ rest.head? = some '.' ∧
        (rest.tail = [] ∨ rest.tail.head? = some '/') then
      -- .. element: remove to last /
      if dotdot < out.length then
        Clean.loop rooted n rest.tail
          (out.take (Clean.backtrack out dotdot (out.length - 1))) dotdot
      else if !rooted then
        let out2 := (if 0 < out.length then out ++ ['/'] else out) ++ ['.', '.']
        Clean.loop rooted n rest.tail out2 out2.length
      else
        Clean.loop rooted n rest.tail out dotdot
    else
      -- real path element: add slash if needed, then copy the element
      let out2 := if (rooted ∧ out.length ≠ 1) ∨ (!rooted ∧ out.length ≠ 0)
        then out ++ ['/'] else out
      Clean.loop rooted n (rest.dropWhile (fun d => d != '/'))
        (out2 ++ c :: rest.takeWhile (fun d => d != '/')) dotdot

/-- Clean returns the shortest path name equivalent to path by purely
lexical processing. -/
def Clean (p : List Char) : List Char :=
  match p with
  | [] => ['.']
  | c :: rest =>
    let out :=
      if c = '/' then Clean.loop true p.length rest ['/'] 1
      else Clean.loop false p.length p [] 0
    if out.length = 0 then ['.'] else out

end path

namespace http

/-- The Go type `http.Header`, a `map[string][]string`. -/
abbrev Header := Finmap (fun _ : String => List String)

/-- Set sets the header entries associated with key to the single element
value.  The keys used below are already in canonical form. -/
def Header.Set (h : Header) (key value : String) : Header := h.insert key [value]

/-- The digits used by `strconv.AppendInt`. -/
def digits : List Char := "0123456789abcdefghijklmnopqrstuvwxyz".data

/-- Every byte `>= utf8.RuneSelf` is replaced by `%` and its value in base 16
(`strconv.AppendInt(b, int64(s[i]), 16)`); other bytes are kept. -/
def hexEscapeNonASCII (s : String) : String :=
  String.mk (s.data.flatMap fun c =>
    if c.toNat < 128 then [c]
    else (String.utf8EncodeChar c).flatMap fun b =>
      ['%', digits.getD (b.toNat / 16) '0', digits.getD (b.toNat % 16) '0'])

/-- The state of an `http.ResponseWriter`: its header map and the status
code sent, `none` until `WriteHeader` has been called. -/
structure ResponseWriter where
  header : Header := ∅
  status : Option Nat := none

/-- WriteHeader sends the status code; a second call is ignored. -/
def ResponseWriter.WriteHeader (w : ResponseWriter) (code : Nat) : ResponseWriter :=
  match w.status with
  | some _ => w
  | none => { w with status := some code }

/-- The URL that `Redirect` goes on with: when `url.Parse` accepts `url` and
reports neither scheme nor host, the URL is made absolute against the request
path, `r.URL.EscapedPath()`, and cleaned, the query string and a trailing slash
being kept. -/
def Redirect.target (urlParse : String → Option url.URL) (escapedPath : url.URL → String)
    (r : Request) (url : String) : String :=
  match urlParse url with
  | none => url
  | some u =>
    if u.Scheme = "" ∧ u.Host = "" then
      let oldpath := if escapedPath r.URL = "" then "/" else escapedPath r.URL
      -- no leading http://server: make relative path absolute
      let url1 := if url = "" ∨ url.data.head? ≠ some '/'
        then (path.Split oldpath.data).1 ++ url.data else url.data
      let url2 := url1.takeWhile (fun c => c != '?')
      let query := url1.dropWhile (fun c => c != '?')
      -- clean up but preserve trailing slash
      let trailing := url2.getLast? = some '/'
      let url3 := path.Clean url2
      let url4 := if trailing ∧ url3.getLast? ≠ some '/' then url3 ++ ['/'] else url3
      String.mk (url4 ++ query)
    else url

/-- Redirect replies to the request with a redirect to url, which may be a
path relative to the request path. -/
def Redirect (urlParse : String → Option url.URL) (escapedPath : url.URL → String)
    (w : ResponseWriter) (r : Request) (url : String) (code : Nat) : ResponseWriter :=
  let hadCT := (w.header.lookup "Content-Type").isSome
  let h1 := w.header.Set "Location" (hexEscapeNonASCII (Redirect.target urlParse escapedPath r url))
  let h2 := if !hadCT ∧ (r.Method = "GET" ∨ r.Method = "HEAD")
    then h1.Set "Content-Type" "text/html; charset=utf-8" else h1
  ResponseWriter.WriteHeader { w with header := h2 } code

end http

/-! ## The reduction `Redirections.Map` -/

theorem Map_nil : Redirections.Map [] = ∅ := rfl

theorem Map_append (A B : Redirections) :
    Redirections.Map (A ++ B)
      = B.foldl (fun result r => result.insert r.Path r.URL) (Redirections.Map A) := by
  simp [Redirections.Map, List.foldl_append]

theorem Map_concat (rs : Redirections) (r : Redirection) :
    Redirections.Map (rs ++ [r]) = (Redirections.Map rs).insert r.Path r.URL := by
  simp [Map_append]

/-- Assignments to other keys leave the value stored under `p` alone. -/
theorem lookup_foldl_insert_of_ne (p : String) (B : Redirections)
    (hB : ∀ x ∈ B, x.Path ≠ p) (m : PathMap) :
    (B.foldl (fun result r => result.insert r.Path r.URL) m).lookup p = m.lookup p := by
  induction B generalizing m with
  | nil => rfl
  | cons x B ih =>
    have hx : p ≠ x.Path := fun h => hB x (List.mem_cons_self _ _) h.symm
    rw [List.foldl_cons, ih (fun y hy => hB y (List.mem_cons_of_mem _ hy)),
      Finmap.lookup_insert_of_ne _ hx]

/-- The keys of the reduced map are the paths of the table. -/
theorem mem_Map (rs : Redirections) (p : String) :
    p ∈ Redirections.Map rs ↔ ∃ r ∈ rs, r.Path = p := by
  induction rs using List.reverseRecOn with
  | nil => simp [Map_nil, Finmap.not_mem_empty]
  | append_singleton rs r ih =>
    rw [Map_concat, Finmap.mem_insert, ih]
    constructor
    · rintro (h | ⟨x, hx, hp⟩)
      · exact ⟨r, by simp, h.symm⟩
      · exact ⟨x, by simp [hx], hp⟩
    · rintro ⟨x, hx, hp⟩
      rcases List.mem_append.1 hx with h | h
      · exact Or.inr ⟨x, h, hp⟩
      · left
        rw [List.mem_singleton.1 h] at hp
        exact hp.symm

/-- An entry that no later entry shadows is the one the map holds. -/
theorem lookup_Map_of_last (A B : Redirections) (r : Redirection)
    (hB : ∀ x ∈ B, x.Path ≠ r.Path) :
    (Redirections.Map (A ++ r :: B)).lookup r.Path = some r.URL := by
  rw [Map_append, List.foldl_cons, lookup_foldl_insert_of_ne r.Path B hB,
    Finmap.lookup_insert]

theorem len_Map_le (rs : Redirections) : PathMap.len (Redirections.Map rs) ≤ rs.length := by
  have hsub : (Redirections.Map rs).keys ⊆ (rs.map Redirection.Path).toFinset := by
    intro p hp
    rcases (mem_Map rs p).1 (Finmap.mem_keys.1 hp) with ⟨r, hr, rfl⟩
    exact List.mem_toFinset.2 (List.mem_map_of_mem _ hr)
  calc PathMap.len (Redirections.Map rs)
      ≤ (rs.map Redirection.Path).toFinset.card := Finset.card_le_card hsub
    _ ≤ (rs.map Redirection.Path).length := List.toFinset_card_le _
    _ = rs.length := List.length_map _ _

/-- With pairwise distinct paths every entry is the last one for its path. -/
theorem lookup_Map_of_nodup (rs : Redirections) (hnd : (rs.map Redirection.Path).Nodup)
    (r : Redirection) (hr : r ∈ rs) :
    (Redirections.Map rs).lookup r.Path = some r.URL := by
  obtain ⟨A, B, rfl⟩ := List.append_of_mem hr
  apply lookup_Map_of_last
  intro x hx hxp
  rw [List.map_append, List.map_cons, List.nodup_append] at hnd
  have h1 := (List.nodup_cons.1 hnd.2.1).1
  exact h1 (hxp ▸ List.mem_map_of_mem _ hx)

theorem lastWithPath_concat (p : String) (rs : Redirections) (r : Redirection) :
    lastWithPath p (rs ++ [r]) = if r.Path = p then some r else lastWithPath p rs := by
  by_cases h : r.Path = p <;> simp [lastWithPath, List.find?_cons, h]

theorem find?_eq_head?_filter (q : Redirection → Bool) (l : Redirections) :
    l.find? q = (l.filter q).head? := by
  induction l with
  | nil => rfl
  | cons x l ih =>
    by_cases h : q x = true
    · rw [List.find?_cons_of_pos _ h, List.filter_cons_of_pos h, List.head?_cons]
    · rw [List.find?_cons_of_neg _ h, List.filter_cons_of_neg h, ih]

/-- The last entry on path `p` is the last element of the sub-table of the
entries on path `p`. -/
theorem lastWithPath_eq_getLast_filter (p : String) (rs : Redirections) :
    lastWithPath p rs = (rs.filter (fun r => decide (r.Path = p))).getLast? := by
  rw [lastWithPath, find?_eq_head?_filter, List.filter_reverse, List.head?_reverse]

theorem lookup_Map_eq_last (rs : Redirections) (p : String) :
    (Redirections.Map rs).lookup p = (lastWithPath p rs).map Redirection.URL := by
  induction rs using List.reverseRecOn with
  | nil => simp [Map_nil, lastWithPath]
  | append_singleton rs r ih =>
    rw [Map_concat, lastWithPath_concat]
    by_cases h : r.Path = p
    · subst h
      simp [Finmap.lookup_insert]
    · rw [Finmap.lookup_insert_of_ne _ (Ne.symm h), ih]
      simp [h]

/-! ## The dispatcher -/

theorem serve_hit {W : Type} (httpRedirect : W → http.Request → String → Nat → W)
    (M : PathMap) (F : http.Handler W) (w : W) (r : http.Request) (u : String)
    (h : M.lookup r.URL.Path = some u) :
    MapHandler.serve httpRedirect M F w r
      = (M, httpRedirect w r u http.StatusPermanentRedirect) := by
  simp [MapHandler.serve, h]

theorem serve_miss {W : Type} (httpRedirect : W → http.Request → String → Nat → W)
    (M : PathMap) (F : http.Handler W) (w : W) (r : http.Request)
    (h : r.URL.Path ∉ M) :
    MapHandler.serve httpRedirect M F w r = (M, F w r) := by
  simp [MapHandler.serve, Finmap.lookup_eq_none.2 h]

theorem lookup_singleton_of_ne (k u p : String) (h : p ≠ k) :
    (Finmap.singleton k u : PathMap).lookup p = none := by
  rw [Finmap.lookup_eq_none, Finmap.mem_singleton]
  exact h

theorem YAMLHandler_ok {W ε : Type} (httpRedirect : W → http.Request → String → Nat → W)
    (yamlUnmarshal : Bytes → Redirections × Option ε) (yml : Bytes) (F : http.Handler W)
    (T : Redirections) (h : yamlUnmarshal yml = (T, none)) :
    YAMLHandler httpRedirect yamlUnmarshal yml F
      = (some (MapHandler httpRedirect (Redirections.Map T) F), none) := by
  simp [YAMLHandler, h]

theorem YAMLHandler_err {W ε : Type} (httpRedirect : W → http.Request → String → Nat → W)
    (yamlUnmarshal : Bytes → Redirections × Option ε) (yml : Bytes) (F : http.Handler W)
    (e : ε) (h : (yamlUnmarshal yml).2 = some e) :
    YAMLHandler httpRedirect yamlUnmarshal yml F = (none, some e) := by
  rcases hp : yamlUnmarshal yml with ⟨T, _ | e2⟩
  · rw [hp] at h
    cases h
  · rw [hp] at h
    simp only [Option.some.injEq] at h
    simp [YAMLHandler, hp, h]

theorem JSONHandler_ok {W ε : Type} (httpRedirect : W → http.Request → String → Nat → W)
    (jsonUnmarshal : Bytes → Redirections × Option ε) (raw : Bytes) (F : http.Handler W)
    (T : Redirections) (h : jsonUnmarshal raw = (T, none)) :
    JSONHandler httpRedirect jsonUnmarshal raw F
      = (some (MapHandler httpRedirect (Redirections.Map T) F), none) := by
  simp [JSONHandler, h]

theorem JSONHandler_err {W ε : Type} (httpRedirect : W → http.Request → String → Nat → W)
    (jsonUnmarshal : Bytes → Redirections × Option ε) (raw : Bytes) (F : http.Handler W)
    (e : ε) (h : (jsonUnmarshal raw).2 = some e) :
    JSONHandler httpRedirect jsonUnmarshal raw F = (none, some e) := by
  rcases hp : jsonUnmarshal raw with ⟨T, _ | e2⟩
  · rw [hp] at h
    cases h
  · rw [hp] at h
    simp only [Option.some.injEq] at h
    simp [JSONHandler, hp, h]

/-- The error a decoder returns is the error of its parser. -/
theorem YAMLHandler_snd {W ε : Type} (httpRedirect : W → http.Request → String → Nat → W)
    (yamlUnmarshal : Bytes → Redirections × Option ε) (yml : Bytes) (F : http.Handler W) :
    (YAMLHandler httpRedirect yamlUnmarshal yml F).2 = (yamlUnmarshal yml).2 := by
  rcases hp : yamlUnmarshal yml with ⟨T, _ | e⟩ <;> simp [YAMLHandler, hp]

theorem JSONHandler_snd {W ε : Type} (httpRedirect : W → http.Request → String → Nat → W)
    (jsonUnmarshal : Bytes → Redirections × Option ε) (raw : Bytes) (F : http.Handler W) :
    (JSONHandler httpRedirect jsonUnmarshal raw F).2 = (jsonUnmarshal raw).2 := by
  rcases hp : jsonUnmarshal raw with ⟨T, _ | e⟩ <;> simp [JSONHandler, hp]

/-- A decoder returns a handler exactly when it returns no error. -/
theorem YAMLHandler_fst {W ε : Type} (httpRedirect : W → http.Request → String → Nat → W)
    (yamlUnmarshal : Bytes → Redirections × Option ε) (yml : Bytes) (F : http.Handler W) :
    (YAMLHandler httpRedirect yamlUnmarshal yml F).1.isSome
      = (yamlUnmarshal yml).2.isNone := by
  rcases hp : yamlUnmarshal yml with ⟨T, _ | e⟩ <;> simp [YAMLHandler, hp]

theorem JSONHandler_fst {W ε : Type} (httpRedirect : W → http.Request → String → Nat → W)
    (jsonUnmarshal : Bytes → Redirections × Option ε) (raw : Bytes) (F : http.Handler W) :
    (JSONHandler httpRedirect jsonUnmarshal raw F).1.isSome
      = (jsonUnmarshal raw).2.isNone := by
  rcases hp : jsonUnmarshal raw with ⟨T, _ | e⟩ <;> simp [JSONHandler, hp]

/-! ## What `http.Redirect` writes -/

theorem digits_getD_ascii (i : Nat) : (http.digits.getD i '0').toNat < 128 := by
  by_cases h : i < 36
  · interval_cases i <;> decide
  · rw [List.getD_eq_default _ _ (by simpa [http.digits] using h)]
    decide

/-- The escaped string holds ASCII only. -/
theorem hexEscapeNonASCII_ascii (s : String) :
    ∀ c ∈ (http.hexEscapeNonASCII s).data, c.toNat < 128 := by
  intro c hc
  simp only [http.hexEscapeNonASCII, List.mem_flatMap] at hc
  obtain ⟨a, _, hca⟩ := hc
  by_cases ha : a.toNat < 128
  · rw [if_pos ha, List.mem_singleton] at hca
    exact hca ▸ ha
  · rw [if_neg ha, List.mem_flatMap] at hca
    obtain ⟨b, _, hcb⟩ := hca
    simp only [List.mem_cons, List.mem_singleton, List.not_mem_nil, or_false] at hcb
    rcases hcb with h | h | h
    · rw [h]; decide
    · rw [h]; exact digits_getD_ascii _
    · rw [h]; exact digits_getD_ascii _

theorem flatMap_ascii_id (l : List Char) (h : ∀ c ∈ l, c.toNat < 128) :
    (l.flatMap fun c =>
      if c.toNat < 128 then [c]
      else (String.utf8EncodeChar c).flatMap fun b =>
        ['%', http.digits.getD (b.toNat / 16) '0', http.digits.getD (b.toNat % 16) '0'])
      = l := by
  induction l with
  | nil => rfl
  | cons a l ih =>
    rw [List.flatMap_cons, if_pos (h a (List.mem_cons_self _ _)),
      ih (fun c hc => h c (List.mem_cons_of_mem _ hc))]
    rfl

/-- An ASCII string is not changed by the escaping. -/
theorem hexEscapeNonASCII_of_ascii (s : String) (h : ∀ c ∈ s.data, c.toNat < 128) :
    http.hexEscapeNonASCII s = s := by
  simp only [http.hexEscapeNonASCII]
  rw [flatMap_ascii_id s.data h]

/-- A URL that `url.Parse` rejects, or for which it reports a scheme or a
host, is not rewritten. -/
theorem target_of_absolute (urlParse : String → Option url.URL)
    (escapedPath : url.URL → String) (r : http.Request)
    (u : String) (h : ∀ p, urlParse u = some p → p.Scheme ≠ "" ∨ p.Host ≠ "") :
    http.Redirect.target urlParse escapedPath r u = u := by
  unfold http.Redirect.target
  cases hp : urlParse u with
  | none => rfl
  | some p =>
    have hne : ¬ (p.Scheme = "" ∧ p.Host = "") := by
      rintro ⟨h1, h2⟩
      rcases h p hp with h3 | h3
      · exact h3 h1
      · exact h3 h2
    simp only [if_neg hne]

theorem Redirect_location (urlParse : String → Option url.URL)
    (escapedPath : url.URL → String) (w : http.ResponseWriter)
    (r : http.Request) (u : String) (code : Nat) :
    (http.Redirect urlParse escapedPath w r u code).header.lookup "Location"
      = some [http.hexEscapeNonASCII (http.Redirect.target urlParse escapedPath r u)] := by
  have hne : ("Location" : String) ≠ "Content-Type" := by decide
  unfold http.Redirect http.ResponseWriter.WriteHeader http.Header.Set
  cases w.status <;> simp only [] <;> split_ifs <;>
    simp [Finmap.lookup_insert, Finmap.lookup_insert_of_ne _ hne]

theorem Redirect_status (urlParse : String → Option url.URL)
    (escapedPath : url.URL → String) (w : http.ResponseWriter)
    (r : http.Request) (u : String) (code : Nat) (hw : w.status = none) :
    (http.Redirect urlParse escapedPath w r u code).status = some code := by
  simp [http.Redirect, http.ResponseWriter.WriteHeader, hw]

/-! ## The reduction: claims -/

/-- C9: for every table `T` and string `p` (the empty string included), `p` is
a key of `Redirections.Map T` exactly when some entry of `T` has path `p`, and
then the value is the URL of the last entry of `T` with path `p` (stated both
by position, `T = A ++ r :: B` with no entry of `B` on path `p`, and through
`lastWithPath`); the map has at most `len(T)` keys; `Map` is a total function,
and an entry with empty path or empty URL is stored under the literal key
`""` or with the literal value `""`. -/
theorem Map_characterisation (T : Redirections) (p : String) :
    (p ∈ Redirections.Map T ↔ ∃ r ∈ T, r.Path = p) ∧
    (∀ (A B : Redirections) (r : Redirection), T = A ++ r :: B → r.Path = p →
      (∀ x ∈ B, x.Path ≠ p) → (Redirections.Map T).lookup p = some r.URL) ∧
    (Redirections.Map T).lookup p = (lastWithPath p T).map Redirection.URL ∧
    PathMap.len (Redirections.Map T) ≤ T.length ∧
    (∀ u : String, (Redirections.Map (T ++ [⟨"", u⟩])).lookup "" = some u) ∧
    (Redirections.Map (T ++ [⟨p, ""⟩])).lookup p = some "" := by
  refine ⟨mem_Map T p, ?_, lookup_Map_eq_last T p, len_Map_le T, ?_, ?_⟩
  · rintro A B r rfl rfl hB
    exact lookup_Map_of_last A B r hB
  · intro u
    exact lookup_Map_of_last T [] ⟨"", u⟩ (by simp)
  · exact lookup_Map_of_last T [] ⟨p, ""⟩ (by simp)

theorem Map_characterisation_witness :
    ("/x" ∈ Redirections.Map [⟨"/x", "A"⟩, ⟨"", "E"⟩, ⟨"/x", "B"⟩, ⟨"/y", ""⟩]) ∧
    (Redirections.Map [⟨"/x", "A"⟩, ⟨"", "E"⟩, ⟨"/x", "B"⟩, ⟨"/y", ""⟩]).lookup "/x"
      = some "B" ∧
    PathMap.len (Redirections.Map [⟨"/x", "A"⟩, ⟨"", "E"⟩, ⟨"/x", "B"⟩, ⟨"/y", ""⟩]) ≤ 4 :=
  ⟨(Map_characterisation [⟨"/x", "A"⟩, ⟨"", "E"⟩, ⟨"/x", "B"⟩, ⟨"/y", ""⟩] "/x").1.2
      ⟨⟨"/x", "A"⟩, by decide, rfl⟩,
   (Map_characterisation [⟨"/x", "A"⟩, ⟨"", "E"⟩, ⟨"/x", "B"⟩, ⟨"/y", ""⟩] "/x").2.1
      [⟨"/x", "A"⟩, ⟨"", "E"⟩] [⟨"/y", ""⟩] ⟨"/x", "B"⟩ rfl rfl (by decide),
   (Map_characterisation [⟨"/x", "A"⟩, ⟨"", "E"⟩, ⟨"/x", "B"⟩, ⟨"/y", ""⟩] "/x").2.2.2.1⟩

/-- C2 (last wins): when a table contains two entries with the same path
`p`, the earlier one with URL `u1` and the later one with URL `u2`, no entry
after the later one being on path `p` (`T = A ++ (p,u1) :: B ++ (p,u2) :: C`
with no entry of `C` on `p`; `A` and `B` are arbitrary and may hold further
entries on `p`), the reduced map sends `p` to `u2`. -/
theorem Map_last_wins (A B C : Redirections) (p u1 u2 : String)
    (hC : ∀ x ∈ C, x.Path ≠ p) :
    (Redirections.Map (A ++ ⟨p, u1⟩ :: (B ++ ⟨p, u2⟩ :: C))).lookup p = some u2 := by
  have h := lookup_Map_of_last (A ++ ⟨p, u1⟩ :: B) C ⟨p, u2⟩ hC
  simpa [List.append_assoc] using h

theorem Map_last_wins_witness :
    (∀ x ∈ ([⟨"/z", "Z"⟩] : Redirections), x.Path ≠ "/x") ∧
    (Redirections.Map ([⟨"/y", "Y"⟩, ⟨"/x", "A0"⟩] ++ ⟨"/x", "A"⟩ :: ([⟨"/w", "W"⟩] ++
      ⟨"/x", "B"⟩ :: [⟨"/z", "Z"⟩]))).lookup "/x" = some "B" :=
  ⟨by decide,
   Map_last_wins [⟨"/y", "Y"⟩, ⟨"/x", "A0"⟩] [⟨"/w", "W"⟩] [⟨"/z", "Z"⟩] "/x" "A" "B"
     (by decide)⟩

/-- C7 (empty table): `Redirections.Map` of the empty table is the empty map,
with no key, and the handler built from it gives, for every fallback and every
request, exactly the fallback's response; the only call it makes is the one to
the fallback, never a redirect. -/
theorem Map_empty_table {W : Type} (httpRedirect : W → http.Request → String → Nat → W)
    (F : http.Handler W) (w : W) (log : List Call) (r : http.Request) :
    Redirections.Map [] = ∅ ∧
    PathMap.len (Redirections.Map []) = 0 ∧
    (∀ p : String, p ∉ Redirections.Map []) ∧
    MapHandler httpRedirect (Redirections.Map []) F w r = F w r ∧
    MapHandler (logRedirect httpRedirect) (Redirections.Map []) (logFallback F) (w, log) r
      = (F w r, log ++ [Call.ServeHTTP r]) := by
  have hnot : ∀ p : String, p ∉ Redirections.Map [] := fun p => Finmap.not_mem_empty
  refine ⟨rfl, rfl, hnot, ?_, ?_⟩
  · simp [MapHandler, serve_miss _ _ _ _ _ (hnot r.URL.Path)]
  · simp [MapHandler, serve_miss _ _ _ _ _ (hnot r.URL.Path), logFallback]

theorem Map_empty_table_witness :
    MapHandler recordRedirect (Redirections.Map []) recordFallback []
        { URL := { Path := "/anything" } }
      = [Call.ServeHTTP { URL := { Path := "/anything" } }] :=
  (Map_empty_table recordRedirect recordFallback [] [] { URL := { Path := "/anything" } }).2.2.2.1

/-- C8 (order is irrelevant without duplicates): for a table `T` with pairwise
distinct paths and any permutation `T2` of it, `Redirections.Map T2` equals
`Redirections.Map T`, and the handlers built from the two maps agree on every
request. -/
theorem Map_perm_of_nodup {W : Type} (httpRedirect : W → http.Request → String → Nat → W)
    (F : http.Handler W) (T T2 : Redirections)
    (hnd : (T.map Redirection.Path).Nodup) (hperm : T2.Perm T) :
    Redirections.Map T2 = Redirections.Map T ∧
    ∀ (w : W) (r : http.Request),
      MapHandler httpRedirect (Redirections.Map T2) F w r
        = MapHandler httpRedirect (Redirections.Map T) F w r := by
  have hnd2 : (T2.map Redirection.Path).Nodup := (hperm.map _).nodup_iff.2 hnd
  have hmap : Redirections.Map T2 = Redirections.Map T := by
    apply Finmap.ext_lookup
    intro p
    by_cases hp : p ∈ Redirections.Map T
    · obtain ⟨x, hx, rfl⟩ := (mem_Map T p).1 hp
      rw [lookup_Map_of_nodup T hnd x hx, lookup_Map_of_nodup T2 hnd2 x (hperm.mem_iff.2 hx)]
    · have hp2 : p ∉ Redirections.Map T2 := by
        intro h
        obtain ⟨x, hx, hxp⟩ := (mem_Map T2 p).1 h
        exact hp ((mem_Map T p).2 ⟨x, hperm.mem_iff.1 hx, hxp⟩)
      rw [Finmap.lookup_eq_none.2 hp, Finmap.lookup_eq_none.2 hp2]
  exact ⟨hmap, fun w r => by rw [hmap]⟩

theorem Map_perm_of_nodup_witness :
    (([⟨"/a", "1"⟩, ⟨"/b", "2"⟩, ⟨"/c", "3"⟩] : Redirections).map Redirection.Path).Nodup ∧
    Redirections.Map [⟨"/c", "3"⟩, ⟨"/a", "1"⟩, ⟨"/b", "2"⟩]
      = Redirections.Map [⟨"/a", "1"⟩, ⟨"/b", "2"⟩, ⟨"/c", "3"⟩] :=
  ⟨by decide,
   (Map_perm_of_nodup recordRedirect recordFallback
      [⟨"/a", "1"⟩, ⟨"/b", "2"⟩, ⟨"/c", "3"⟩] [⟨"/c", "3"⟩, ⟨"/a", "1"⟩, ⟨"/b", "2"⟩]
      (by decide) (by decide)).1⟩

/-- With a repeated path the order of the entries does change the map. -/
theorem Map_order_matters_with_duplicates :
    Redirections.Map [⟨"/x", "A"⟩, ⟨"/x", "B"⟩] ≠ Redirections.Map [⟨"/x", "B"⟩, ⟨"/x", "A"⟩] := by
  decide

/-! ## The dispatcher: claims -/

/-- C1 (exact-match dispatch): for every map `M`, fallback `F` and request `r`,
the handler `MapHandler M F` answers with the call
`http.Redirect(w, r, M[p], 308)` when the path `p` of `r` is a key of `M`, and
otherwise its result is exactly what `F` produces for `r` on the same writer.
The lookup is on the raw path: a map holding only `/foo` sends requests for
`/foo/` and for `/Foo` to the fallback. -/
theorem MapHandler_exact_match {W : Type}
    (httpRedirect : W → http.Request → String → Nat → W)
    (M : PathMap) (F : http.Handler W) (w : W) (r : http.Request) :
    (r.URL.Path ∈ M ↔ ∃ u, M.lookup r.URL.Path = some u) ∧
    (∀ u, M.lookup r.URL.Path = some u →
      MapHandler httpRedirect M F w r = httpRedirect w r u 308) ∧
    (r.URL.Path ∉ M → MapHandler httpRedirect M F w r = F w r) ∧
    (∀ u : String, r.URL.Path = "/foo" →
      MapHandler httpRedirect (Finmap.singleton "/foo" u) F w r = httpRedirect w r u 308) ∧
    (∀ u : String, r.URL.Path = "/foo/" →
      MapHandler httpRedirect (Finmap.singleton "/foo" u) F w r = F w r) ∧
    (∀ u : String, r.URL.Path = "/Foo" →
      MapHandler httpRedirect (Finmap.singleton "/foo" u) F w r = F w r) := by
  refine ⟨Finmap.mem_iff, ?_, ?_, ?_, ?_, ?_⟩
  · intro u hu
    simp [MapHandler, serve_hit _ _ _ _ _ u hu, http.StatusPermanentRedirect]
  · intro h
    simp [MapHandler, serve_miss _ _ _ _ _ h]
  · intro u hr
    have h : (Finmap.singleton "/foo" u : PathMap).lookup r.URL.Path = some u := by
      rw [hr]
      exact Finmap.lookup_singleton_eq
    simp [MapHandler, serve_hit _ _ _ _ _ u h, http.StatusPermanentRedirect]
  · intro u hr
    have h : r.URL.Path ∉ (Finmap.singleton "/foo" u : PathMap) := by
      rw [hr, Finmap.mem_singleton]
      decide
    simp [MapHandler, serve_miss _ _ _ _ _ h]
  · intro u hr
    have h : r.URL.Path ∉ (Finmap.singleton "/foo" u : PathMap) := by
      rw [hr, Finmap.mem_singleton]
      decide
    simp [MapHandler, serve_miss _ _ _ _ _ h]

theorem MapHandler_exact_match_witness :
    MapHandler recordRedirect (Redirections.Map [⟨"/a", "urlA"⟩, ⟨"/b", "urlB"⟩])
        recordFallback [] { URL := { Path := "/b" } }
      = [Call.Redirect { URL := { Path := "/b" } } "urlB" 308] ∧
    MapHandler recordRedirect (Redirections.Map [⟨"/a", "urlA"⟩, ⟨"/b", "urlB"⟩])
        recordFallback [] { URL := { Path := "/c" } }
      = [Call.ServeHTTP { URL := { Path := "/c" } }] :=
  ⟨(MapHandler_exact_match recordRedirect (Redirections.Map [⟨"/a", "urlA"⟩, ⟨"/b", "urlB"⟩])
      recordFallback [] { URL := { Path := "/b" } }).2.1 "urlB" (by decide),
   (MapHandler_exact_match recordRedirect (Redirections.Map [⟨"/a", "urlA"⟩, ⟨"/b", "urlB"⟩])
      recordFallback [] { URL := { Path := "/c" } }).2.2.1 (by decide)⟩

/-- C10 (the two branches exclude each other): with every callee logging its
own invocation, a request whose path is not a key of `M` makes the handler
call the fallback exactly once, with `r` itself, and make no redirect; a
request whose path is a key makes it call `http.Redirect` once with the stored
URL and 308 and never the fallback; in both cases the map is the same after
the call as before. -/
theorem MapHandler_branches_exclusive {W : Type}
    (httpRedirect : W → http.Request → String → Nat → W)
    (M : PathMap) (F : http.Handler W) (w : W) (log : List Call) (r : http.Request) :
    (r.URL.Path ∉ M →
      MapHandler.serve (logRedirect httpRedirect) M (logFallback F) (w, log) r
        = (M, (F w r, log ++ [Call.ServeHTTP r]))) ∧
    (∀ u, M.lookup r.URL.Path = some u →
      MapHandler.serve (logRedirect httpRedirect) M (logFallback F) (w, log) r
        = (M, (httpRedirect w r u 308, log ++ [Call.Redirect r u 308]))) ∧
    (MapHandler.serve httpRedirect M F w r).1 = M := by
  refine ⟨?_, ?_, ?_⟩
  · intro h
    simp [serve_miss _ _ _ _ _ h, logFallback]
  · intro u hu
    simp [serve_hit _ _ _ _ _ u hu, logRedirect, http.StatusPermanentRedirect]
  · unfold MapHandler.serve
    cases M.lookup r.URL.Path <;> rfl

theorem MapHandler_branches_exclusive_witness :
    MapHandler.serve (logRedirect recordRedirect)
        (Redirections.Map [⟨"/a", "urlA"⟩]) (logFallback recordFallback)
        ([], []) { URL := { Path := "/a" } }
      = (Redirections.Map [⟨"/a", "urlA"⟩],
         (recordRedirect [] { URL := { Path := "/a" } } "urlA" 308,
          [] ++ [Call.Redirect { URL := { Path := "/a" } } "urlA" 308])) ∧
    MapHandler.serve (logRedirect recordRedirect)
        (Redirections.Map [⟨"/a", "urlA"⟩]) (logFallback recordFallback)
        ([], []) { Method := "POST", URL := { Path := "/a/" } }
      = (Redirections.Map [⟨"/a", "urlA"⟩],
         (recordFallback [] { Method := "POST", URL := { Path := "/a/" } },
          [] ++ [Call.ServeHTTP { Method := "POST", URL := { Path := "/a/" } }])) :=
  ⟨(MapHandler_branches_exclusive recordRedirect (Redirections.Map [⟨"/a", "urlA"⟩])
      recordFallback [] [] { URL := { Path := "/a" } }).2.1 "urlA" (by decide),
   (MapHandler_branches_exclusive recordRedirect (Redirections.Map [⟨"/a", "urlA"⟩])
      recordFallback [] [] { Method := "POST", URL := { Path := "/a/" } }).1 (by decide)⟩

/-! ## The decoders: claims -/

/-- C3 (decode failure is propagated verbatim): when the underlying parser
fails on the bytes with error `e`, the decoder returns no handler together
with exactly `e`; the error a decoder returns is always the parser's own, so it
is non-nil only when the parser failed; this holds for `YAMLHandler` and
for `JSONHandler`, and on the bytes `{not valid}` in particular. -/
theorem decode_error_verbatim {W ε₁ ε₂ : Type}
    (httpRedirect : W → http.Request → String → Nat → W)
    (yamlUnmarshal : Bytes → Redirections × Option ε₁)
    (jsonUnmarshal : Bytes → Redirections × Option ε₂)
    (b : Bytes) (F : http.Handler W) :
    (∀ e, (yamlUnmarshal b).2 = some e →
      YAMLHandler httpRedirect yamlUnmarshal b F = (none, some e)) ∧
    (∀ e, (jsonUnmarshal b).2 = some e →
      JSONHandler httpRedirect jsonUnmarshal b F = (none, some e)) ∧
    (∀ e, (YAMLHandler httpRedirect yamlUnmarshal b F).2 = some e →
      (yamlUnmarshal b).2 = some e) ∧
    (∀ e, (JSONHandler httpRedirect jsonUnmarshal b F).2 = some e →
      (jsonUnmarshal b).2 = some e) ∧
    (∀ e, (jsonUnmarshal (bytesOf "\x7bnot valid\x7d")).2 = some e →
      JSONHandler httpRedirect jsonUnmarshal (bytesOf "\x7bnot valid\x7d") F
        = (none, some e)) := by
  refine ⟨fun e h => YAMLHandler_err _ _ _ _ e h, fun e h => JSONHandler_err _ _ _ _ e h,
    ?_, ?_, fun e h => JSONHandler_err _ _ _ _ e h⟩
  · intro e h
    rw [YAMLHandler_snd] at h
    exact h
  · intro e h
    rw [JSONHandler_snd] at h
    exact h

theorem decode_error_verbatim_witness :
    JSONHandler recordRedirect
        (fun _ => (([] : Redirections), some "invalid character"))
        (bytesOf "\x7bnot valid\x7d") recordFallback
      = (none, some "invalid character") :=
  (decode_error_verbatim recordRedirect
      (fun _ => (([] : Redirections), some "yaml: unmarshal errors"))
      (fun _ => (([] : Redirections), some "invalid character"))
      (bytesOf "\x7bnot valid\x7d") recordFallback).2.2.2.2 "invalid character" rfl

/-- C4 (decoder success and equivalence): when the YAML parser succeeds on `y`
and the JSON parser succeeds on `j` and both yield the table `T`, both decoders
return a nil error and a handler, and the two handlers give, for every writer
and request, the same result, that of `MapHandler (T.Map()) F`; in particular
a path `p` that `T` holds twice, last with URL `u2`, is redirected to `u2` by
both. -/
theorem decoders_agree {W ε₁ ε₂ : Type}
    (httpRedirect : W → http.Request → String → Nat → W)
    (yamlUnmarshal : Bytes → Redirections × Option ε₁)
    (jsonUnmarshal : Bytes → Redirections × Option ε₂)
    (y j : Bytes) (T : Redirections) (F : http.Handler W)
    (hy : yamlUnmarshal y = (T, none)) (hj : jsonUnmarshal j = (T, none)) :
    ∃ hY hJ : http.HandlerFunc W,
      YAMLHandler httpRedirect yamlUnmarshal y F = (some hY, none) ∧
      JSONHandler httpRedirect jsonUnmarshal j F = (some hJ, none) ∧
      (∀ (w : W) (r : http.Request),
        hY w r = MapHandler httpRedirect (Redirections.Map T) F w r ∧ hJ w r = hY w r) ∧
      (∀ (A B C : Redirections) (p u1 u2 : String),
        T = A ++ ⟨p, u1⟩ :: (B ++ ⟨p, u2⟩ :: C) → (∀ x ∈ C, x.Path ≠ p) →
        ∀ (w : W) (r : http.Request), r.URL.Path = p →
          hY w r = httpRedirect w r u2 308 ∧ hJ w r = httpRedirect w r u2 308) := by
  refine ⟨_, _, YAMLHandler_ok _ _ _ _ T hy, JSONHandler_ok _ _ _ _ T hj,
    fun _ _ => ⟨rfl, rfl⟩, ?_⟩
  rintro A B C p u1 u2 rfl hC w r rfl
  have h := lookup_Map_of_last (A ++ ⟨r.URL.Path, u1⟩ :: B) C ⟨r.URL.Path, u2⟩ hC
  simp only [List.append_assoc, List.cons_append] at h
  simp [MapHandler, serve_hit _ _ _ _ _ u2 h, http.StatusPermanentRedirect]

theorem decoders_agree_witness :
    ∃ hY hJ : http.HandlerFunc (List Call),
      YAMLHandler recordRedirect
          (fun _ => (([⟨"/x", "A"⟩, ⟨"/x", "B"⟩] : Redirections), (none : Option String)))
          (bytesOf "- path: /x\n  url: A\n- path: /x\n  url: B\n")
          recordFallback = (some hY, none) ∧
      JSONHandler recordRedirect
          (fun _ => (([⟨"/x", "A"⟩, ⟨"/x", "B"⟩] : Redirections), (none : Option String)))
          (bytesOf "[\x7b\"path\":\"/x\",\"url\":\"A\"\x7d,\x7b\"path\":\"/x\",\"url\":\"B\"\x7d]")
          recordFallback = (some hJ, none) ∧
      (∀ (w : List Call) (r : http.Request),
        hY w r = MapHandler recordRedirect
          (Redirections.Map [⟨"/x", "A"⟩, ⟨"/x", "B"⟩]) recordFallback w r ∧
        hJ w r = hY w r) ∧
      (∀ (A B C : Redirections) (p u1 u2 : String),
        [⟨"/x", "A"⟩, ⟨"/x", "B"⟩] = A ++ ⟨p, u1⟩ :: (B ++ ⟨p, u2⟩ :: C) →
        (∀ x ∈ C, x.Path ≠ p) →
        ∀ (w : List Call) (r : http.Request), r.URL.Path = p →
          hY w r = recordRedirect w r u2 308 ∧ hJ w r = recordRedirect w r u2 308) :=
  decoders_agree _ _ _ _ _ [⟨"/x", "A"⟩, ⟨"/x", "B"⟩] _ rfl rfl

/-- C6, as the code has it: a decoder returns a non-nil error, and then no
handler, exactly when its parser reports an error on the bytes; whatever table
the parser accepts is turned into a handler, no entry being checked: an entry
the parser leaves with the empty URL (as for a document without the `url`
key) makes the handler redirect its path to the empty URL. -/
theorem decoders_reject_exactly_parser_errors {W ε₁ ε₂ : Type}
    (httpRedirect : W → http.Request → String → Nat → W)
    (yamlUnmarshal : Bytes → Redirections × Option ε₁)
    (jsonUnmarshal : Bytes → Redirections × Option ε₂)
    (b : Bytes) (F : http.Handler W) :
    ((YAMLHandler httpRedirect yamlUnmarshal b F).2 = none ↔ (yamlUnmarshal b).2 = none) ∧
    ((JSONHandler httpRedirect jsonUnmarshal b F).2 = none ↔ (jsonUnmarshal b).2 = none) ∧
    ((YAMLHandler httpRedirect yamlUnmarshal b F).1 = none ↔ (yamlUnmarshal b).2 ≠ none) ∧
    ((JSONHandler httpRedirect jsonUnmarshal b F).1 = none ↔ (jsonUnmarshal b).2 ≠ none) ∧
    (∀ (T : Redirections) (p : String), yamlUnmarshal b = (T ++ [⟨p, ""⟩], none) →
      ∃ h, YAMLHandler httpRedirect yamlUnmarshal b F = (some h, none) ∧
        ∀ (w : W) (r : http.Request), r.URL.Path = p → h w r = httpRedirect w r "" 308) ∧
    (∀ (T : Redirections) (p : String), jsonUnmarshal b = (T ++ [⟨p, ""⟩], none) →
      ∃ h, JSONHandler httpRedirect jsonUnmarshal b F = (some h, none) ∧
        ∀ (w : W) (r : http.Request), r.URL.Path = p → h w r = httpRedirect w r "" 308) := by
  have hserve : ∀ (T : Redirections) (p : String) (w : W) (r : http.Request),
      r.URL.Path = p →
      MapHandler httpRedirect (Redirections.Map (T ++ [⟨p, ""⟩])) F w r
        = httpRedirect w r "" 308 := by
    rintro T p w r rfl
    have h := lookup_Map_of_last T [] ⟨r.URL.Path, ""⟩ (by simp)
    simp [MapHandler, serve_hit _ _ _ _ _ "" h, http.StatusPermanentRedirect]
  refine ⟨by rw [YAMLHandler_snd], by rw [JSONHandler_snd], ?_, ?_, ?_, ?_⟩
  · have h := YAMLHandler_fst httpRedirect yamlUnmarshal b F
    cases h1 : (YAMLHandler httpRedirect yamlUnmarshal b F).1 <;>
      cases h2 : (yamlUnmarshal b).2 <;> simp [h1, h2] at h ⊢
  · have h := JSONHandler_fst httpRedirect jsonUnmarshal b F
    cases h1 : (JSONHandler httpRedirect jsonUnmarshal b F).1 <;>
      cases h2 : (jsonUnmarshal b).2 <;> simp [h1, h2] at h ⊢
  · intro T p hT
    exact ⟨_, YAMLHandler_ok _ _ _ _ _ hT, hserve T p⟩
  · intro T p hT
    exact ⟨_, JSONHandler_ok _ _ _ _ _ hT, hserve T p⟩

theorem decoders_reject_exactly_parser_errors_witness :
    ((JSONHandler recordRedirect
        (fun _ => (([] : Redirections), some "unexpected end of JSON input"))
        (bytesOf "[") recordFallback).1 = none) ∧
    ((YAMLHandler recordRedirect
        (fun _ => (([⟨"/foo", ""⟩] : Redirections), (none : Option String)))
        (bytesOf "- path: /foo") recordFallback).2 = none) :=
  ⟨(decoders_reject_exactly_parser_errors recordRedirect
      (fun _ => (([⟨"/foo", ""⟩] : Redirections), (none : Option String)))
      (fun _ => (([] : Redirections), some "unexpected end of JSON input"))
      (bytesOf "[") recordFallback).2.2.2.1.2 (by simp),
   (decoders_reject_exactly_parser_errors recordRedirect
      (fun _ => (([⟨"/foo", ""⟩] : Redirections), (none : Option String)))
      (fun _ => (([] : Redirections), some "unexpected end of JSON input"))
      (bytesOf "- path: /foo") recordFallback).1.2 rfl⟩

/-- C6 fails as stated: take the JSON bytes `[{"path":"/foo"}]` and the YAML
bytes `- path: /foo`, which `json.Unmarshal` and `yaml.Unmarshal` decode
without error into the one entry with path `/foo` and the empty URL (an absent
key leaves the field at its zero value).  Parsers with that outcome exist, and
for every such parser the decoder returns a nil error and a handler, which
redirects `/foo` to the empty URL. -/
theorem decoders_accept_missing_url :
    (∃ parse : Bytes → Redirections × Option String,
      parse (bytesOf "[\x7b\"path\":\"/foo\"\x7d]") = ([⟨"/foo", ""⟩], none) ∧
      parse (bytesOf "- path: /foo") = ([⟨"/foo", ""⟩], none)) ∧
    (∀ parse : Bytes → Redirections × Option String,
      parse (bytesOf "[\x7b\"path\":\"/foo\"\x7d]") = ([⟨"/foo", ""⟩], none) →
      ∃ h, JSONHandler recordRedirect parse (bytesOf "[\x7b\"path\":\"/foo\"\x7d]")
          recordFallback = (some h, none) ∧
        h [] { URL := { Path := "/foo" } }
          = [Call.Redirect { URL := { Path := "/foo" } } "" 308]) ∧
    (∀ parse : Bytes → Redirections × Option String,
      parse (bytesOf "- path: /foo") = ([⟨"/foo", ""⟩], none) →
      ∃ h, YAMLHandler recordRedirect parse (bytesOf "- path: /foo")
          recordFallback = (some h, none) ∧
        h [] { URL := { Path := "/foo" } }
          = [Call.Redirect { URL := { Path := "/foo" } } "" 308]) := by
  refine ⟨⟨fun _ => ([⟨"/foo", ""⟩], none), rfl, rfl⟩, ?_, ?_⟩
  · intro parse h
    exact ⟨_, JSONHandler_ok _ _ _ _ _ h, by decide⟩
  · intro parse h
    exact ⟨_, YAMLHandler_ok _ _ _ _ _ h, by decide⟩

/-! ## The `Location` header: claim -/

/-- C5, as the code has it: for a request whose path is a key of `M`, the
handler hands the stored string unchanged, with status 308, to
`http.Redirect`, validating, normalizing and escaping nothing itself; on a
writer whose header is not yet sent the response has status 308; and its
`Location` header is exactly the stored string whenever that string is ASCII
and `url.Parse` rejects it or reports a scheme or a host for it. -/
theorem MapHandler_location (urlParse : String → Option url.URL)
    (escapedPath : url.URL → String) (M : PathMap)
    (F : http.Handler http.ResponseWriter) (w : http.ResponseWriter) (r : http.Request)
    (u : String) (hu : M.lookup r.URL.Path = some u) :
    MapHandler (http.Redirect urlParse escapedPath) M F w r
      = http.Redirect urlParse escapedPath w r u 308 ∧
    (w.status = none →
      (MapHandler (http.Redirect urlParse escapedPath) M F w r).status = some 308) ∧
    ((∀ c ∈ u.data, c.toNat < 128) →
      (∀ p, urlParse u = some p → p.Scheme ≠ "" ∨ p.Host ≠ "") →
      (MapHandler (http.Redirect urlParse escapedPath) M F w r).header.lookup "Location"
        = some [u]) := by
  have h : MapHandler (http.Redirect urlParse escapedPath) M F w r
      = http.Redirect urlParse escapedPath w r u 308 := by
    simp [MapHandler, serve_hit _ _ _ _ _ u hu, http.StatusPermanentRedirect]
  refine ⟨h, ?_, ?_⟩
  · intro hw
    rw [h, Redirect_status _ _ _ _ _ _ hw]
  · intro hascii habs
    rw [h, Redirect_location, target_of_absolute _ _ _ _ habs,
      hexEscapeNonASCII_of_ascii _ hascii]

theorem MapHandler_location_witness :
    (Redirections.Map [⟨"/a", "https://example.com/urlA"⟩]).lookup
        ({ URL := { Path := "/a" } } : http.Request).URL.Path
      = some "https://example.com/urlA" ∧
    (MapHandler
        (http.Redirect (fun _ => some { Scheme := "https", Host := "example.com" })
          (fun u => u.Path))
        (Redirections.Map [⟨"/a", "https://example.com/urlA"⟩]) (fun w _ => w) {}
        { URL := { Path := "/a" } }).header.lookup "Location"
      = some ["https://example.com/urlA"] :=
  ⟨by decide,
   (MapHandler_location (fun _ => some { Scheme := "https", Host := "example.com" })
      (fun u => u.Path)
      (Redirections.Map [⟨"/a", "https://example.com/urlA"⟩]) (fun w _ => w) {}
      { URL := { Path := "/a" } } "https://example.com/urlA" (by decide)).2.2
      (by decide) (by intro p hp; cases hp; exact Or.inl (by decide))⟩

/-- C5 fails as stated.  (1) With `M = {"/a": "https://example.com/café"}`, a
request for `/a` gets, whatever `url.Parse` and `EscapedPath` return, a
`Location` header that is not the stored string: `http.Redirect` escapes the
bytes of `é`.  (2) With the claim's own `M = {"/a":"urlA","/b":"urlB"}`, as
soon as `url.Parse` accepts `urlA` without scheme and host and the escaped
request path of `/a` is `/a`, a request for `/a` gets `Location: /urlA`. -/
theorem Location_not_verbatim :
    (∃ (M : PathMap) (r : http.Request) (u : String),
      M = Redirections.Map [⟨"/a", "https://example.com/café"⟩] ∧
      r = { URL := { Path := "/a" } } ∧
      M.lookup r.URL.Path = some u ∧
      ∀ (urlParse : String → Option url.URL) (escapedPath : url.URL → String)
        (F : http.Handler http.ResponseWriter) (w : http.ResponseWriter),
        (MapHandler (http.Redirect urlParse escapedPath) M F w r).header.lookup "Location"
          ≠ some [u]) ∧
    (∀ (urlParse : String → Option url.URL) (escapedPath : url.URL → String)
        (F : http.Handler http.ResponseWriter) (w : http.ResponseWriter) (p : url.URL),
      urlParse "urlA" = some p → p.Scheme = "" → p.Host = "" →
      escapedPath { Path := "/a" } = "/a" →
      (MapHandler (http.Redirect urlParse escapedPath)
          (Redirections.Map [⟨"/a", "urlA"⟩, ⟨"/b", "urlB"⟩])
          F w { URL := { Path := "/a" } }).header.lookup "Location" = some ["/urlA"]) := by
  constructor
  · refine ⟨_, _, "https://example.com/café", rfl, rfl, by decide, ?_⟩
    intro urlParse escapedPath F w hloc
    have hu : (Redirections.Map [⟨"/a", "https://example.com/café"⟩]).lookup
        ({ URL := { Path := "/a" } } : http.Request).URL.Path
          = some "https://example.com/café" := by decide
    have h : MapHandler (http.Redirect urlParse escapedPath)
        (Redirections.Map [⟨"/a", "https://example.com/café"⟩]) F w { URL := { Path := "/a" } }
          = http.Redirect urlParse escapedPath w { URL := { Path := "/a" } }
              "https://example.com/café" 308 := by
      simp [MapHandler, serve_hit _ _ _ _ _ _ hu, http.StatusPermanentRedirect]
    rw [h, Redirect_location] at hloc
    simp only [Option.some.injEq, List.cons.injEq, and_true] at hloc
    have hascii := hexEscapeNonASCII_ascii
      (http.Redirect.target urlParse escapedPath { URL := { Path := "/a" } }
        "https://example.com/café")
    rw [hloc] at hascii
    exact absurd (hascii 'é' (by decide)) (by decide)
  · intro urlParse escapedPath F w p hp hs hh he
    have hu : (Redirections.Map [⟨"/a", "urlA"⟩, ⟨"/b", "urlB"⟩]).lookup
        ({ URL := { Path := "/a" } } : http.Request).URL.Path = some "urlA" := by decide
    have h : MapHandler (http.Redirect urlParse escapedPath)
        (Redirections.Map [⟨"/a", "urlA"⟩, ⟨"/b", "urlB"⟩]) F w { URL := { Path := "/a" } }
          = http.Redirect urlParse escapedPath w { URL := { Path := "/a" } } "urlA" 308 := by
      simp [MapHandler, serve_hit _ _ _ _ _ _ hu, http.StatusPermanentRedirect]
    have ht : http.Redirect.target urlParse escapedPath { URL := { Path := "/a" } } "urlA"
        = "/urlA" := by
      unfold http.Redirect.target
      rw [hp]
      simp only [hs, hh, and_self, if_true, he]
      decide
    rw [h, Redirect_location, ht]
    decide

end urlshort
